import Mathlib

/-!
# Verification of the `pun` descriptor-to-LLB compilation pipeline

A shallow embedding, in Lean 4, of the core logic of `main.go` from the
`pun` repository (nubificus/pun): the Dockerfile-style descriptor
extractor (`parseFile`), the base-image resolution policy and graph
compiler (`constructLLB`), the result annotation step (`annotateRes`),
and the buildkit-frontend request handler (`punBuilder`).

Go strings are byte sequences, so they are modelled as `List Nat`
(one entry per byte); `gs` converts an ASCII Lean string literal to its
byte sequence (for ASCII text the code-point sequence coincides with the
UTF-8 byte sequence).  External collaborators (the Dockerfile parser,
the buildkit gateway, JSON serialization) are modelled at their
interface boundary: instruction lists arrive already parsed, remote
calls are oracle functions with an explicit call trace, and the JSON
object written to `/urunc.json` is represented by its key/value content.
-/

namespace Pun

/-- A Go string, modelled as its sequence of bytes. -/
abbrev GoStr := List Nat

/-- The byte sequence of an ASCII string literal. -/
def gs (s : String) : GoStr := s.toList.map Char.toNat

/-! ## Base64 (Go `encoding/base64` `StdEncoding`)

`constructLLB` encodes every annotation value with
`base64.StdEncoding.EncodeToString` before embedding it in the
`/urunc.json` payload.  The standard base64 alphabet with `=` (byte 61)
padding is embedded below, byte-for-byte. -/

/-- The standard base64 alphabet `A-Za-z0-9+/`, as bytes. -/
def b64Chars : GoStr := gs "ABCDEFGHIJKLMNOPQRSTUVWXYZabcdefghijklmnopqrstuvwxyz0123456789+/"

/-- The alphabet byte for a 6-bit group. -/
def b64EncChar (n : Nat) : Nat := b64Chars.getD n 0

/-- The 6-bit group for an alphabet byte (`none` for bytes outside the alphabet). -/
def b64DecChar (c : Nat) : Option Nat := b64Chars.findIdx? (fun x => x == c)

/-- Standard base64 encoding of a byte sequence: three input bytes map to
four alphabet bytes; a trailing group of one or two bytes is padded with
`=` (byte 61). Models `base64.StdEncoding.EncodeToString`. -/
def b64Encode : GoStr → GoStr
  | [] => []
  | [b1] => [b64EncChar (b1 / 4), b64EncChar (b1 % 4 * 16), 61, 61]
  | [b1, b2] => [b64EncChar (b1 / 4), b64EncChar (b1 % 4 * 16 + b2 / 16), b64EncChar (b2 % 16 * 4), 61]
  | b1 :: b2 :: b3 :: rest =>
      b64EncChar (b1 / 4) :: b64EncChar (b1 % 4 * 16 + b2 / 16) ::
      b64EncChar (b2 % 16 * 4 + b3 / 64) :: b64EncChar (b3 % 64) :: b64Encode rest

/-- Standard base64 decoding, the inverse of `b64Encode`: consumes four
alphabet bytes at a time, honouring `=` (byte 61) padding in the final
group. Models `base64.StdEncoding.DecodeString`. -/
def b64Decode : GoStr → Option GoStr
  | [] => some []
  | c1 :: c2 :: c3 :: c4 :: rest =>
      match b64DecChar c1, b64DecChar c2 with
      | some n1, some n2 =>
          if c3 = 61 then
            if c4 = 61 ∧ rest = [] then some [n1 * 4 + n2 / 16] else none
          else
            match b64DecChar c3 with
            | some n3 =>
                if c4 = 61 then
                  if rest = [] then some [n1 * 4 + n2 / 16, n2 % 16 * 16 + n3 / 4] else none
                else
                  match b64DecChar c4, b64Decode rest with
                  | some n4, some bs =>
                      some ((n1 * 4 + n2 / 16) :: (n2 % 16 * 16 + n3 / 4) :: (n3 % 4 * 64 + n4) :: bs)
                  | _, _ => none
            | none => none
      | _, _ => none
  | _ => none

theorem b64DecChar_encChar {n : Nat} (h : n < 64) : b64DecChar (b64EncChar n) = some n := by
  revert h
  revert n
  decide

theorem b64EncChar_ne_pad {n : Nat} (h : n < 64) : b64EncChar n ≠ 61 := by
  revert h
  revert n
  decide

/-- Decoding inverts encoding on any byte sequence. -/
theorem b64_roundtrip (bs : GoStr) (h : ∀ b ∈ bs, b < 256) :
    b64Decode (b64Encode bs) = some bs := by
  induction bs using b64Encode.induct with
  | case1 =>
      simp [b64Encode, b64Decode]
  | case2 b1 =>
      have h1 : b1 < 256 := h b1 (by simp)
      have e1 : b1 / 4 < 64 := by omega
      have e2 : b1 % 4 * 16 < 64 := by omega
      have r1 : b1 / 4 * 4 + b1 % 4 * 16 / 16 = b1 := by omega
      simp only [b64Encode, b64Decode, b64DecChar_encChar e1, b64DecChar_encChar e2]
      simp only [reduceIte, and_self, r1]
  | case3 b1 b2 =>
      have h1 : b1 < 256 := h b1 (by simp)
      have h2 : b2 < 256 := h b2 (by simp)
      have e1 : b1 / 4 < 64 := by omega
      have e2 : b1 % 4 * 16 + b2 / 16 < 64 := by omega
      have e3 : b2 % 16 * 4 < 64 := by omega
      have r1 : b1 / 4 * 4 + (b1 % 4 * 16 + b2 / 16) / 16 = b1 := by omega
      have r2 : (b1 % 4 * 16 + b2 / 16) % 16 * 16 + b2 % 16 * 4 / 4 = b2 := by omega
      simp only [b64Encode, b64Decode, b64DecChar_encChar e1, b64DecChar_encChar e2]
      rw [if_neg (b64EncChar_ne_pad e3)]
      simp only [b64DecChar_encChar e3, reduceIte, r1, r2]
  | case4 b1 b2 b3 rest ih =>
      have h1 : b1 < 256 := h b1 (by simp)
      have h2 : b2 < 256 := h b2 (by simp)
      have h3 : b3 < 256 := h b3 (by simp)
      have hrest : ∀ b ∈ rest, b < 256 := fun b hb => h b (by simp [hb])
      have e1 : b1 / 4 < 64 := by omega
      have e2 : b1 % 4 * 16 + b2 / 16 < 64 := by omega
      have e3 : b2 % 16 * 4 + b3 / 64 < 64 := by omega
      have e4 : b3 % 64 < 64 := by omega
      have r1 : b1 / 4 * 4 + (b1 % 4 * 16 + b2 / 16) / 16 = b1 := by omega
      have r2 : (b1 % 4 * 16 + b2 / 16) % 16 * 16 + (b2 % 16 * 4 + b3 / 64) / 4 = b2 := by
        omega
      have r3 : (b2 % 16 * 4 + b3 / 64) % 4 * 64 + b3 % 64 = b3 := by omega
      simp only [b64Encode, b64Decode, b64DecChar_encChar e1, b64DecChar_encChar e2]
      rw [if_neg (b64EncChar_ne_pad e3)]
      simp only [b64DecChar_encChar e3]
      rw [if_neg (b64EncChar_ne_pad e4)]
      simp only [b64DecChar_encChar e4, ih hrest, r1, r2, r3]

/-! ## Data model

`PackInstructions` mirrors the Go struct of the same name; a
`CopyCommand` keeps the fields of `instructions.CopyCommand` that the
program reads (`SourcePaths`, `DestPath`).  The instruction list that
`parseFile` traverses is the output of the external Dockerfile parser;
the four cases below are the four branches of its `switch`: a `FROM`
stage, a `COPY`, a `LABEL` (with its ordered key/value pairs), and any
other recognized command (ignored with a diagnostic print). -/

/-- The fields of `instructions.CopyCommand` read by the program. -/
structure CopyCommand where
  sourcePaths : List GoStr
  destPath : GoStr
deriving DecidableEq

/-- One parsed Dockerfile instruction, as classified by the `switch` in
`parseFile`. -/
inductive Instruction where
  | stage (baseName : GoStr)
  | copy (cmd : CopyCommand)
  | label (pairs : List (GoStr × GoStr))
  | other (name : GoStr)
deriving DecidableEq

/-- The Go struct `PackInstructions`: base reference, ordered copies,
and the annotation map (a Go `map[string]string`, modelled as an
association list with unique keys kept in insertion order). -/
structure PackInstructions where
  base : GoStr
  copies : List CopyCommand
  annots : List (GoStr × GoStr)
deriving DecidableEq

/-- Go map assignment `m[k] = v`: overwrite the entry for `k` if
present, otherwise append a new entry. -/
def mapInsert (m : List (GoStr × GoStr)) (k v : GoStr) : List (GoStr × GoStr) :=
  if m.any (fun p => p.1 = k) then
    m.map (fun p => if p.1 = k then (k, v) else p)
  else
    m ++ [(k, v)]

/-- Go map read `m[k]` returning `none` for a missing key. -/
def lookupKV : List (GoStr × GoStr) → GoStr → Option GoStr
  | [], _ => none
  | p :: rest, k => if p.1 = k then some p.2 else lookupKV rest k

/-- Go `strings.Trim(s, "\"")`: remove ALL leading and trailing
double-quote bytes (byte 34). -/
def trimQuotes (s : GoStr) : GoStr :=
  ((s.dropWhile (fun b => b == 34)).reverse.dropWhile (fun b => b == 34)).reverse

/-- `Modelled from the spec:` the spec's §4.1 reading of label
trimming, "strip one layer of surrounding double-quote characters from
both key and value (if present)": remove exactly one quote byte from
each end when the string is wrapped in a pair of quotes, otherwise
leave it unchanged.  Kept only to compare the spec's words with the
source's `strings.Trim` semantics. -/
def oneLayerStrip (s : GoStr) : GoStr :=
  if 2 ≤ s.length ∧ s.head? = some 34 ∧ s.getLast? = some 34 then
    (s.drop 1).dropLast
  else
    s

/-! ## Descriptor extraction (`parseFile`) -/

/-- The message of the error returned on a second `FROM`. -/
def multiStageErr : GoStr := gs "Multi-stage builds are not supported"

/-- The `LabelCommand` loop body: fold the instruction's key/value
pairs into the annotation map, trimming quotes from both. -/
def applyLabels (ps : List (GoStr × GoStr)) (m : List (GoStr × GoStr)) : List (GoStr × GoStr) :=
  ps.foldl (fun acc p => mapInsert acc (trimQuotes p.1) (trimQuotes p.2)) m

/-- The body of the `switch` in `parseFile`, processing one instruction
against the accumulated `PackInstructions`. -/
def stepInstr (acc : PackInstructions) (i : Instruction) : Except GoStr PackInstructions :=
  match i with
  | .stage b =>
      if acc.base ≠ [] then .error multiStageErr
      else .ok { acc with base := b }
  | .copy c => .ok { acc with copies := acc.copies ++ [c] }
  | .label ps => .ok { acc with annots := applyLabels ps acc.annots }
  | .other _ => .ok acc

/-- The traversal loop of `parseFile`: process the instructions in
order, short-circuiting on the first error, exactly as the Go `for`
loop with its early `return nil, err`. -/
def runFold (acc : PackInstructions) : List Instruction → Except GoStr PackInstructions
  | [] => .ok acc
  | i :: l =>
      match stepInstr acc i with
      | .error e => .error e
      | .ok acc' => runFold acc' l

/-- The instruction-traversal of the Go `parseFile`, starting from the
freshly allocated `PackInstructions` (empty base, no copies, empty
annotation map).  The external text parser (`parser.Parse` /
`instructions.ParseInstruction`) is a collaborator whose output is the
instruction list consumed here. -/
def parseFile (l : List Instruction) : Except GoStr PackInstructions :=
  runFold { base := [], copies := [], annots := [] } l

/-- The base declarations (`FROM` references) of an instruction list,
in order. -/
def baseDecls (l : List Instruction) : List GoStr :=
  l.filterMap fun i => match i with
    | .stage b => some b
    | _ => none

/-! ## Base resolution and graph compilation (`constructLLB`) -/

/-- The base selection produced by the `if/else if/else` chain on
`instr.Base` in `constructLLB`: `llb.Scratch()`, or `llb.Image` with a
platform option, or plain `llb.Image`. -/
inductive BaseOp where
  | scratch
  | image (ref : GoStr)
  | imageOnPlatform (ref : GoStr) (os arch : GoStr)
deriving DecidableEq

/-- The base-resolution policy of `constructLLB`: `"scratch"` selects
the empty root; a reference with prefix `unikraft.org` (`unikraftHub`)
selects a pull with the platform forced to qemu/amd64; any other
reference selects a default-platform pull. -/
def resolveBase (ref : GoStr) : BaseOp :=
  if ref = gs "scratch" then .scratch
  else if (gs "unikraft.org").isPrefixOf ref then
    .imageOnPlatform ref (gs "qemu") (gs "amd64")
  else .image ref

/-- One `llb.Copy` file operation as issued by `copyIn`: source path
taken from the local context `packContextName` (`"context"`), with
`CreateDestPath` set. -/
structure CopyOp where
  fromCtx : GoStr
  src : GoStr
  dst : GoStr
  createDestPath : Bool
deriving DecidableEq

/-- One operation of the compiled LLB graph.  The `mkfile` payload is
the JSON object written by `llb.Mkfile`, represented by its key/value
content (Go's `json.Marshal` of a `map[string]string` is a faithful,
order-irrelevant serialization of that map). -/
inductive LLBOp where
  | base (b : BaseOp)
  | copy (c : CopyOp)
  | mkfile (path : GoStr) (mode : Nat) (contents : List (GoStr × GoStr))
deriving DecidableEq

/-- The compiled LLB definition: the ordered operations together with
the platform constraint passed to `Marshal` (`llb.LinuxAmd64`). -/
structure LLBGraph where
  ops : List LLBOp
  platform : GoStr × GoStr
deriving DecidableEq

/-- The `/urunc.json` payload: the annotation map with every value
base64-encoded (the loop over `instr.Annots` in `constructLLB`). -/
def uruncPayload (annots : List (GoStr × GoStr)) : List (GoStr × GoStr) :=
  annots.map fun p => (p.1, b64Encode p.2)

/-- The copy operations of the graph, one per copy command in order.
The Go code indexes `aCopy.SourcePaths[0]` without a bounds guard; a
command with no source paths makes the process panic with an
index-out-of-range runtime error, modelled by `none` (an abort, not a
returned `error` value). -/
def copyOps (copies : List CopyCommand) : Option (List CopyOp) :=
  copies.mapM fun cp =>
    (cp.sourcePaths[0]?).map fun src =>
      { fromCtx := gs "context", src := src, dst := cp.destPath, createDestPath := true }

/-- The Go `constructLLB`: base selection, then one copy operation per
copy command in order, then the `/urunc.json` `Mkfile` (mode 0644),
marshalled for linux/amd64.  `none` models the index-out-of-range panic
on a copy command with no source paths; the Go `error` returns
(`json.Marshal` of a string map, `state.Marshal`) cannot fire for these
inputs and are omitted. -/
def constructLLB (instr : PackInstructions) : Option LLBGraph :=
  match copyOps instr.copies with
  | none => none
  | some cs =>
      some { ops := LLBOp.base (resolveBase instr.base) ::
                    (cs.map LLBOp.copy ++ [LLBOp.mkfile (gs "/urunc.json") 0o644 (uruncPayload instr.annots)])
           , platform := (gs "linux", gs "amd64") }

/-! ## Result annotation (`annotateRes`) and the request handler
(`punBuilder`, service mode) -/

/-- The `ocispecs.Image` configuration constructed by `annotateRes`. -/
structure ImageConfig where
  os : GoStr
  arch : GoStr
  rootfsType : GoStr
  workingDir : GoStr
  entrypoint : List GoStr
  labels : List (GoStr × GoStr)
deriving DecidableEq

/-- The metadata `annotateRes` attaches to the build result: the image
configuration (added under the exporter image-config key) and one
manifest annotation per key carrying the raw value bytes. -/
structure AnnotatedResult where
  config : ImageConfig
  manifestAnnots : List (GoStr × GoStr)
deriving DecidableEq

/-- The Go `annotateRes`: a fixed linux/amd64, layers, workdir `/`,
entrypoint `/hello2` image config carrying the annotation map as its
labels, plus a per-key manifest annotation with the raw value.  The
`SingleRef` plumbing on the engine result is external and omitted. -/
def annotateRes (annots : List (GoStr × GoStr)) : AnnotatedResult :=
  { config := { os := gs "linux", arch := gs "amd64", rootfsType := gs "layers",
                workingDir := gs "/", entrypoint := [gs "/hello2"], labels := annots }
  , manifestAnnots := annots }

/-- One remote round-trip issued to the buildkit engine. -/
inductive RemoteCall where
  | solveContextFile (name : GoStr)
  | readFile (name : GoStr)
  | solveGraph
deriving DecidableEq

/-- The external collaborators of the service-mode handler: the build
options mapping and oracles for the engine responses (the two phases of
`readFileFromLLB`, the final solve) and for the external Dockerfile
text parser. -/
structure GatewayClient where
  opts : List (GoStr × GoStr)
  solveContextFile : GoStr → Except GoStr Unit
  readContextFile : GoStr → Except GoStr GoStr
  parseDockerfile : GoStr → Except GoStr (List Instruction)
  solveGraph : LLBGraph → Except GoStr Unit

/-- The Go `punBuilder` request handler, paired with the trace of
remote round-trips it issues.  Reading a missing `filename` option from
the Go map yields `""`; the handler then fails before any remote call.
`none` models the `constructLLB` panic propagating. -/
def punBuilder (c : GatewayClient) : Option (Except GoStr AnnotatedResult × List RemoteCall) :=
  let packFile := (lookupKV c.opts (gs "filename")).getD []
  if packFile = [] then
    some (.error (gs "filename: was not provided"), [])
  else
    match c.solveContextFile packFile with
    | .error e =>
        some (.error (gs "Failed to fetch and read filename: " ++ e),
              [.solveContextFile packFile])
    | .ok _ =>
    match c.readContextFile packFile with
    | .error e =>
        some (.error (gs "Failed to fetch and read filename: " ++ e),
              [.solveContextFile packFile, .readFile packFile])
    | .ok fileBytes =>
    match c.parseDockerfile fileBytes with
    | .error _ =>
        some (.error (gs "Error parsing packing instructions"),
              [.solveContextFile packFile, .readFile packFile])
    | .ok nodes =>
    match parseFile nodes with
    | .error _ =>
        some (.error (gs "Error parsing packing instructions"),
              [.solveContextFile packFile, .readFile packFile])
    | .ok instr =>
    match constructLLB instr with
    | none => none
    | some g =>
    match c.solveGraph g with
    | .error e =>
        some (.error (gs "Failed to resolve LLB: " ++ e),
              [.solveContextFile packFile, .readFile packFile, .solveGraph])
    | .ok _ =>
        some (.ok (annotateRes instr.annots),
              [.solveContextFile packFile, .readFile packFile, .solveGraph])

/-! ## Helper lemmas -/

theorem baseDecls_cons_stage (b : GoStr) (l : List Instruction) :
    baseDecls (Instruction.stage b :: l) = b :: baseDecls l := by
  simp [baseDecls]

theorem baseDecls_cons_copy (c : CopyCommand) (l : List Instruction) :
    baseDecls (Instruction.copy c :: l) = baseDecls l := by
  simp [baseDecls]

theorem baseDecls_cons_label (ps : List (GoStr × GoStr)) (l : List Instruction) :
    baseDecls (Instruction.label ps :: l) = baseDecls l := by
  simp [baseDecls]

theorem baseDecls_cons_other (n : GoStr) (l : List Instruction) :
    baseDecls (Instruction.other n :: l) = baseDecls l := by
  simp [baseDecls]

theorem runFold_noBase (l : List Instruction) : ∀ acc : PackInstructions,
    baseDecls l = [] → ∃ r, runFold acc l = .ok r ∧ r.base = acc.base := by
  induction l with
  | nil => exact fun acc _ => ⟨acc, rfl, rfl⟩
  | cons i l ih =>
      intro acc h
      cases i with
      | stage b => rw [baseDecls_cons_stage] at h; exact absurd h (by simp)
      | copy c =>
          rw [baseDecls_cons_copy] at h
          obtain ⟨r, hr, hb⟩ := ih { acc with copies := acc.copies ++ [c] } h
          exact ⟨r, by simpa [runFold, stepInstr] using hr, hb⟩
      | label ps =>
          rw [baseDecls_cons_label] at h
          obtain ⟨r, hr, hb⟩ := ih { acc with annots := applyLabels ps acc.annots } h
          exact ⟨r, by simpa [runFold, stepInstr] using hr, hb⟩
      | other n =>
          rw [baseDecls_cons_other] at h
          obtain ⟨r, hr, hb⟩ := ih acc h
          exact ⟨r, by simpa [runFold, stepInstr] using hr, hb⟩

theorem runFold_conflict (l : List Instruction) : ∀ acc : PackInstructions,
    acc.base ≠ [] → baseDecls l ≠ [] → runFold acc l = .error multiStageErr := by
  induction l with
  | nil => exact fun acc _ h => absurd rfl h
  | cons i l ih =>
      intro acc hbase h
      cases i with
      | stage b => simp [runFold, stepInstr, hbase]
      | copy c =>
          rw [baseDecls_cons_copy] at h
          simpa [runFold, stepInstr] using ih { acc with copies := acc.copies ++ [c] } hbase h
      | label ps =>
          rw [baseDecls_cons_label] at h
          simpa [runFold, stepInstr] using ih { acc with annots := applyLabels ps acc.annots } hbase h
      | other n =>
          rw [baseDecls_cons_other] at h
          simpa [runFold, stepInstr] using ih acc hbase h

theorem runFold_toFirstBase (l : List Instruction) : ∀ (acc : PackInstructions)
    (b : GoStr) (rest : List GoStr), acc.base = [] → baseDecls l = b :: rest →
    ∃ acc' l', runFold acc l = runFold acc' l' ∧ acc'.base = b ∧ baseDecls l' = rest := by
  induction l with
  | nil => intro acc b rest _ h; exact absurd h (by simp [baseDecls])
  | cons i l ih =>
      intro acc b rest hbase h
      cases i with
      | stage b0 =>
          rw [baseDecls_cons_stage] at h
          injection h with hb hrest
          refine ⟨{ acc with base := b0 }, l, ?_, hb, hrest⟩
          simp [runFold, stepInstr, hbase]
      | copy c =>
          rw [baseDecls_cons_copy] at h
          obtain ⟨acc', l', heq, hb, hrest⟩ := ih { acc with copies := acc.copies ++ [c] } b rest hbase h
          exact ⟨acc', l', by simpa [runFold, stepInstr] using heq, hb, hrest⟩
      | label ps =>
          rw [baseDecls_cons_label] at h
          obtain ⟨acc', l', heq, hb, hrest⟩ := ih { acc with annots := applyLabels ps acc.annots } b rest hbase h
          exact ⟨acc', l', by simpa [runFold, stepInstr] using heq, hb, hrest⟩
      | other n =>
          rw [baseDecls_cons_other] at h
          obtain ⟨acc', l', heq, hb, hrest⟩ := ih acc b rest hbase h
          exact ⟨acc', l', by simpa [runFold, stepInstr] using heq, hb, hrest⟩

theorem copyOps_of_nonempty (copies : List CopyCommand)
    (h : ∀ c ∈ copies, c.sourcePaths ≠ []) :
    copyOps copies = some (copies.map fun cp =>
      { fromCtx := gs "context", src := cp.sourcePaths.headD [], dst := cp.destPath,
        createDestPath := true }) := by
  induction copies with
  | nil => rfl
  | cons c l ih =>
      obtain ⟨s, rest, hs⟩ : ∃ s rest, c.sourcePaths = s :: rest := by
        cases hsp : c.sourcePaths with
        | nil => exact absurd hsp (h c (List.mem_cons_self ..))
        | cons s rest => exact ⟨s, rest, rfl⟩
      have ih' := ih (fun c hc => h c (List.mem_cons_of_mem _ hc))
      simp only [copyOps] at ih' ⊢
      rw [List.mapM_cons, ih', hs]
      simp [hs]

theorem lookupKV_append_left_miss (m l : List (GoStr × GoStr)) (k : GoStr)
    (h : ∀ p ∈ m, p.1 ≠ k) : lookupKV (m ++ l) k = lookupKV l k := by
  induction m with
  | nil => rfl
  | cons p m ih =>
      have hp := h p (List.mem_cons_self ..)
      simp only [List.cons_append, lookupKV, if_neg hp]
      exact ih (fun q hq => h q (List.mem_cons_of_mem _ hq))

theorem lookupKV_map_replace (m : List (GoStr × GoStr)) (k v : GoStr)
    (h : m.any (fun p => p.1 = k) = true) :
    lookupKV (m.map (fun p => if p.1 = k then (k, v) else p)) k = some v := by
  induction m with
  | nil => simp at h
  | cons p m ih =>
      by_cases hp : p.1 = k
      · simp [lookupKV, hp]
      · have h' : m.any (fun p => p.1 = k) = true := by simpa [hp] using h
        simp only [List.map_cons, if_neg hp, lookupKV]
        exact ih h'

theorem lookupKV_mapInsert_self (m : List (GoStr × GoStr)) (k v : GoStr) :
    lookupKV (mapInsert m k v) k = some v := by
  unfold mapInsert
  by_cases h : m.any (fun p => p.1 = k) = true
  · simp only [h, if_true]
    exact lookupKV_map_replace m k v h
  · simp only [h, if_false, Bool.false_eq_true]
    have hmiss : ∀ p ∈ m, p.1 ≠ k := by
      intro p hp hk
      exact h (List.any_eq_true.mpr ⟨p, hp, by simp [hk]⟩)
    rw [lookupKV_append_left_miss m _ k hmiss]
    simp [lookupKV]

theorem dropWhile_quote_eq_self {s : GoStr} (h : s.head? ≠ some 34) :
    s.dropWhile (fun b => b == 34) = s := by
  cases s with
  | nil => rfl
  | cons a t =>
      have ha : (a == 34) = false := by
        simp only [List.head?_cons, ne_eq, Option.some.injEq] at h
        simpa using h
      simp [List.dropWhile_cons, ha]

theorem dropWhile_quote_cons34 (l : GoStr) (h : l.head? ≠ some 34) :
    List.dropWhile (fun b => b == 34) (34 :: l) = l := by
  rw [List.dropWhile_cons]
  simp [dropWhile_quote_eq_self h]

theorem trimQuotes_eq_self {s : GoStr} (h1 : s.head? ≠ some 34)
    (h2 : s.getLast? ≠ some 34) : trimQuotes s = s := by
  unfold trimQuotes
  rw [dropWhile_quote_eq_self h1]
  rw [dropWhile_quote_eq_self (by rwa [List.head?_reverse])]
  exact List.reverse_reverse s

theorem trimQuotes_wrap {s : GoStr} (h1 : s.head? ≠ some 34)
    (h2 : s.getLast? ≠ some 34) : trimQuotes ([34] ++ s ++ [34]) = s := by
  by_cases hnil : s = []
  · subst hnil; rfl
  · have hhead : (s ++ [34]).head? = s.head? := by
      cases s with
      | nil => exact absurd rfl hnil
      | cons a t => rfl
    show trimQuotes (34 :: (s ++ [34])) = s
    unfold trimQuotes
    rw [dropWhile_quote_cons34 (s ++ [34]) (by rw [hhead]; exact h1)]
    rw [List.reverse_append]
    show (List.dropWhile (fun b => b == 34) (34 :: s.reverse)).reverse = s
    rw [dropWhile_quote_cons34 s.reverse (by rw [List.head?_reverse]; exact h2)]
    exact List.reverse_reverse s

/-! ## Claim theorems -/

/-- Claim C1: for every package descriptor whose copy entries all carry
at least one source path, the compiled graph's operations appear in
this strict order: the base selection resolved from the descriptor's
base, then one copy operation per copy entry in descriptor order (each
copying its first source path from the external context handle into its
destination with intermediate directories created), and finally the
write of the `/urunc.json` metadata file with the payload computed from
the annotations; the graph is targeted at linux/amd64. -/
theorem constructLLB_op_order (instr : PackInstructions)
    (h : ∀ c ∈ instr.copies, c.sourcePaths ≠ []) :
    constructLLB instr = some ⟨
      LLBOp.base (resolveBase instr.base) ::
        (instr.copies.map (fun cp =>
            LLBOp.copy ⟨gs "context", cp.sourcePaths.headD [], cp.destPath, true⟩) ++
          [LLBOp.mkfile (gs "/urunc.json") 0o644 (uruncPayload instr.annots)]),
      (gs "linux", gs "amd64")⟩ := by
  simp [constructLLB, copyOps_of_nonempty _ h, List.map_map, Function.comp]

/-- Witness for C1 at a concrete descriptor: `FROM scratch`,
`COPY a.bin b.bin /bin/a.bin`, `LABEL k=v`. -/
theorem constructLLB_op_order_witness :
    constructLLB ⟨gs "scratch", [⟨[gs "a.bin", gs "b.bin"], gs "/bin/a.bin"⟩], [(gs "k", gs "v")]⟩ =
      some ⟨[LLBOp.base BaseOp.scratch,
             LLBOp.copy ⟨gs "context", gs "a.bin", gs "/bin/a.bin", true⟩,
             LLBOp.mkfile (gs "/urunc.json") 0o644 [(gs "k", gs "dg==")]],
            (gs "linux", gs "amd64")⟩ :=
  constructLLB_op_order _ (by decide)

/-- Claim C2: base resolution is a pure function of the base reference:
`"scratch"` selects the empty root; every reference starting with the
catalog prefix `unikraft.org` selects a pull of that exact reference
with the platform forced to qemu/amd64; every other non-empty reference
selects a default-platform pull of that exact reference. -/
theorem resolveBase_policy :
    resolveBase (gs "scratch") = BaseOp.scratch ∧
    (∀ ref : GoStr, (gs "unikraft.org").isPrefixOf ref = true →
      resolveBase ref = BaseOp.imageOnPlatform ref (gs "qemu") (gs "amd64")) ∧
    (∀ ref : GoStr, ref ≠ [] → ref ≠ gs "scratch" →
      (gs "unikraft.org").isPrefixOf ref = false →
      resolveBase ref = BaseOp.image ref) := by
  refine ⟨by decide, fun ref h => ?_, fun ref h1 h2 h3 => ?_⟩
  · have hne : ref ≠ gs "scratch" := by
      intro e
      subst e
      exact absurd h (by decide)
    unfold resolveBase
    rw [if_neg hne, if_pos h]
  · unfold resolveBase
    rw [if_neg h2, if_neg (by simp [h3])]

/-- Witness for C2 at concrete references. -/
theorem resolveBase_policy_witness :
    (gs "unikraft.org").isPrefixOf (gs "unikraft.org/nginx:1.15") = true ∧
    resolveBase (gs "unikraft.org/nginx:1.15") =
      BaseOp.imageOnPlatform (gs "unikraft.org/nginx:1.15") (gs "qemu") (gs "amd64") ∧
    resolveBase (gs "docker.io/library/alpine") = BaseOp.image (gs "docker.io/library/alpine") :=
  ⟨by decide, resolveBase_policy.2.1 _ (by decide),
   resolveBase_policy.2.2 _ (by decide) (by decide) (by decide)⟩

/-- Claim C3: over well-formed instruction lists (every declared base
reference non-empty), extraction with exactly one base declaration
succeeds with that declaration's reference as the descriptor's base,
and extraction with two or more base declarations fails with the
multi-stage-unsupported error. -/
theorem parseFile_base_extraction (l : List Instruction)
    (hwf : ∀ b ∈ baseDecls l, b ≠ []) :
    (∀ b, baseDecls l = [b] → ∃ instr, parseFile l = .ok instr ∧ instr.base = b) ∧
    (2 ≤ (baseDecls l).length → parseFile l = .error multiStageErr) := by
  constructor
  · intro b hb
    obtain ⟨acc', l', heq, hbase, hdecls⟩ :=
      runFold_toFirstBase l { base := [], copies := [], annots := [] } b [] rfl hb
    obtain ⟨r, hr, hrb⟩ := runFold_noBase l' acc' hdecls
    refine ⟨r, ?_, by rw [hrb, hbase]⟩
    unfold parseFile
    rw [heq, hr]
  · intro hlen
    obtain ⟨b, rest, hd⟩ : ∃ b rest, baseDecls l = b :: rest := by
      cases hds : baseDecls l with
      | nil => rw [hds] at hlen; simp at hlen
      | cons b rest => exact ⟨b, rest, rfl⟩
    have hb : b ≠ [] := hwf b (by rw [hd]; exact List.mem_cons_self ..)
    obtain ⟨acc', l', heq, hbase, hdecls⟩ :=
      runFold_toFirstBase l { base := [], copies := [], annots := [] } b rest rfl hd
    have hrest : baseDecls l' ≠ [] := by
      rw [hdecls]
      intro hc
      rw [hd, hc] at hlen
      simp at hlen
    unfold parseFile
    rw [heq]
    exact runFold_conflict l' acc' (by rw [hbase]; exact hb) hrest

/-- Witness for C3: one `FROM` succeeds with that base; two `FROM`
fail with the multi-stage error. -/
theorem parseFile_base_extraction_witness :
    (∃ instr, parseFile [Instruction.stage (gs "scratch"), Instruction.copy ⟨[gs "a"], gs "/a"⟩] =
        .ok instr ∧ instr.base = gs "scratch") ∧
    parseFile [Instruction.stage (gs "scratch"), Instruction.stage (gs "alpine")] =
      .error multiStageErr :=
  ⟨(parseFile_base_extraction _ (by decide)).1 (gs "scratch") (by decide),
   (parseFile_base_extraction _ (by decide)).2 (by decide)⟩

/-- Claim C4: round-trip — base64-decoding each value of the
`/urunc.json` payload built from an annotation map yields exactly that
map (same keys, original values). -/
theorem uruncPayload_roundtrip (annots : List (GoStr × GoStr))
    (h : ∀ p ∈ annots, ∀ b ∈ p.2, b < 256) :
    (uruncPayload annots).map (fun p => (p.1, b64Decode p.2)) =
      annots.map (fun p => (p.1, some p.2)) := by
  induction annots with
  | nil => rfl
  | cons p l ih =>
      have hp := b64_roundtrip p.2 (h p (List.mem_cons_self ..))
      have ih' := ih (fun q hq => h q (List.mem_cons_of_mem _ hq))
      simp only [uruncPayload, List.map_cons] at ih' ⊢
      rw [hp, ih']

/-- Witness for C4 at a concrete annotation map. -/
theorem uruncPayload_roundtrip_witness :
    (uruncPayload [(gs "com.urunc.unikernel.type", gs "unikraft")]).map
        (fun p => (p.1, b64Decode p.2)) =
      [(gs "com.urunc.unikernel.type", some (gs "unikraft"))] :=
  uruncPayload_roundtrip _ (by decide)

/-- Claim C5: dual representation — the `/urunc.json` file written into
the graph carries the base64-encoded annotation values (decodable back
to the raw ones), while the image-level metadata attached in service
mode (image-config labels and per-key manifest annotations) carries the
raw, unencoded values of the same map. -/
theorem annots_dual_representation (instr : PackInstructions)
    (hc : ∀ c ∈ instr.copies, c.sourcePaths ≠ [])
    (hb : ∀ p ∈ instr.annots, ∀ b ∈ p.2, b < 256) :
    ∃ g, constructLLB instr = some g ∧
      LLBOp.mkfile (gs "/urunc.json") 0o644
        (instr.annots.map fun p => (p.1, b64Encode p.2)) ∈ g.ops ∧
      (∀ p ∈ instr.annots, b64Decode (b64Encode p.2) = some p.2) ∧
      (annotateRes instr.annots).config.labels = instr.annots ∧
      (annotateRes instr.annots).manifestAnnots = instr.annots := by
  refine ⟨⟨LLBOp.base (resolveBase instr.base) ::
      (instr.copies.map (fun cp =>
          LLBOp.copy ⟨gs "context", cp.sourcePaths.headD [], cp.destPath, true⟩) ++
        [LLBOp.mkfile (gs "/urunc.json") 0o644 (uruncPayload instr.annots)]),
      (gs "linux", gs "amd64")⟩, ?_, ?_,
    fun p hp => b64_roundtrip p.2 (hb p hp), rfl, rfl⟩
  · simp [constructLLB, copyOps_of_nonempty _ hc, List.map_map, Function.comp]
  · simp [uruncPayload, List.mem_cons, List.mem_append]

/-- Witness for C5 at a concrete descriptor. -/
theorem annots_dual_representation_witness :
    ∃ g, constructLLB ⟨gs "scratch", [], [(gs "k", gs "v")]⟩ = some g ∧
      LLBOp.mkfile (gs "/urunc.json") 0o644
        (([(gs "k", gs "v")] : List (GoStr × GoStr)).map fun p => (p.1, b64Encode p.2)) ∈ g.ops ∧
      (∀ p ∈ ([(gs "k", gs "v")] : List (GoStr × GoStr)), b64Decode (b64Encode p.2) = some p.2) ∧
      (annotateRes [(gs "k", gs "v")]).config.labels = [(gs "k", gs "v")] ∧
      (annotateRes [(gs "k", gs "v")]).manifestAnnots = [(gs "k", gs "v")] :=
  annots_dual_representation _ (by decide) (by decide)

/-- Claim C6: only the first declared source path of a copy instruction
reaches the compiled graph — two descriptors agreeing on base,
annotations, and each copy's (first source, destination) pair compile
to the same graph, and the sources of the graph's copy operations are
exactly the first source paths in order. -/
theorem copy_first_source_only :
    (∀ instr instr' : PackInstructions, instr.base = instr'.base →
      instr.annots = instr'.annots →
      instr.copies.map (fun c => (c.sourcePaths.headD [], c.destPath)) =
        instr'.copies.map (fun c => (c.sourcePaths.headD [], c.destPath)) →
      (∀ c ∈ instr.copies, c.sourcePaths ≠ []) →
      (∀ c ∈ instr'.copies, c.sourcePaths ≠ []) →
      constructLLB instr = constructLLB instr') ∧
    (∀ instr : PackInstructions, (∀ c ∈ instr.copies, c.sourcePaths ≠ []) →
      ∃ g, constructLLB instr = some g ∧
        g.ops.filterMap (fun op => match op with | LLBOp.copy cp => some cp.src | _ => none) =
          instr.copies.map (fun c => c.sourcePaths.headD [])) := by
  constructor
  · intro i1 i2 hbase hannots hpairs h1 h2
    have e1 := copyOps_of_nonempty i1.copies h1
    have e2 := copyOps_of_nonempty i2.copies h2
    have hmap : i1.copies.map (fun cp =>
          CopyOp.mk (gs "context") (cp.sourcePaths.headD []) cp.destPath true) =
        i2.copies.map (fun cp =>
          CopyOp.mk (gs "context") (cp.sourcePaths.headD []) cp.destPath true) := by
      have := congrArg
        (List.map (fun pr : GoStr × GoStr => CopyOp.mk (gs "context") pr.1 pr.2 true)) hpairs
      simpa [List.map_map, Function.comp] using this
    unfold constructLLB
    simp only [e1, e2, hbase, hannots, hmap]
  · intro instr h
    refine ⟨⟨LLBOp.base (resolveBase instr.base) ::
        (instr.copies.map (fun cp =>
            LLBOp.copy ⟨gs "context", cp.sourcePaths.headD [], cp.destPath, true⟩) ++
          [LLBOp.mkfile (gs "/urunc.json") 0o644 (uruncPayload instr.annots)]),
        (gs "linux", gs "amd64")⟩, ?_, ?_⟩
    · simp [constructLLB, copyOps_of_nonempty _ h, List.map_map, Function.comp]
    · simp only [List.filterMap_cons, List.filterMap_append, List.filterMap_map,
        List.filterMap_nil, List.append_nil]
      exact List.filterMap_eq_map_iff_forall_eq_some.mpr (fun cp _ => rfl)

/-- Witness for C6: a copy with two source paths compiles exactly as
the copy with only its first, and the single copy source is the first
path. -/
theorem copy_first_source_only_witness :
    constructLLB ⟨gs "scratch", [⟨[gs "a.bin", gs "extra.bin"], gs "/a"⟩], []⟩ =
      constructLLB ⟨gs "scratch", [⟨[gs "a.bin"], gs "/a"⟩], []⟩ ∧
    ∃ g, constructLLB ⟨gs "scratch", [⟨[gs "a.bin", gs "extra.bin"], gs "/a"⟩], []⟩ = some g ∧
      g.ops.filterMap (fun op => match op with | LLBOp.copy cp => some cp.src | _ => none) =
        [gs "a.bin"] :=
  ⟨copy_first_source_only.1 _ _ rfl rfl (by decide) (by decide) (by decide),
   copy_first_source_only.2 _ (by decide)⟩

/-- Claim C7 counterexample: the claim says exactly one layer of
surrounding double quotes is stripped, but the code uses
`strings.Trim`, which strips all of them.  On the label pair
`k=""v""` the code stores `v`, while a one-layer strip would store
`"v"`. -/
theorem label_one_layer_refuted :
    parseFile [Instruction.label [(gs "k", gs "\"\"v\"\"")]] =
      .ok ⟨[], [], [(gs "k", gs "v")]⟩ ∧
    oneLayerStrip (gs "\"\"v\"\"") = gs "\"v\"" ∧
    trimQuotes (gs "\"\"v\"\"") ≠ oneLayerStrip (gs "\"\"v\"\"") :=
  ⟨rfl, by decide, by decide⟩

/-- Claim C7 (amended): every label key and value is stored with ALL
surrounding double-quote characters stripped (Go `strings.Trim`
semantics): a key or value wrapped in a single pair of quotes is stored
without those quotes, one without edge quotes is stored unchanged, and
a later pair with the same key overwrites the prior value. -/
theorem label_trim_and_overwrite :
    (∀ k v : GoStr, ∃ instr, parseFile [Instruction.label [(k, v)]] = .ok instr ∧
      instr.annots = [(trimQuotes k, trimQuotes v)]) ∧
    (∀ s : GoStr, s.head? ≠ some 34 → s.getLast? ≠ some 34 →
      trimQuotes ([34] ++ s ++ [34]) = s ∧ trimQuotes s = s) ∧
    (∀ (ps : List (GoStr × GoStr)) (k v : GoStr),
      ∃ instr, parseFile [Instruction.label (ps ++ [(k, v)])] = .ok instr ∧
        lookupKV instr.annots (trimQuotes k) = some (trimQuotes v)) := by
  refine ⟨fun k v => ⟨⟨[], [], applyLabels [(k, v)] []⟩, rfl, rfl⟩,
    fun s h1 h2 => ⟨trimQuotes_wrap h1 h2, trimQuotes_eq_self h1 h2⟩,
    fun ps k v => ⟨⟨[], [], applyLabels (ps ++ [(k, v)]) []⟩, rfl, ?_⟩⟩
  show lookupKV (applyLabels (ps ++ [(k, v)]) []) (trimQuotes k) = some (trimQuotes v)
  rw [applyLabels, List.foldl_append]
  simp only [List.foldl_cons, List.foldl_nil]
  exact lookupKV_mapInsert_self _ _ _

/-- Witness for C7 (amended) at concrete label pairs. -/
theorem label_trim_and_overwrite_witness :
    (∃ instr, parseFile [Instruction.label [(gs "\"key\"", gs "\"val\"")]] = .ok instr ∧
      instr.annots = [(trimQuotes (gs "\"key\""), trimQuotes (gs "\"val\""))]) ∧
    (trimQuotes ([34] ++ gs "v" ++ [34]) = gs "v" ∧ trimQuotes (gs "v") = gs "v") ∧
    (∃ instr, parseFile [Instruction.label ([(gs "k", gs "a")] ++ [(gs "k", gs "b")])] =
        .ok instr ∧ lookupKV instr.annots (trimQuotes (gs "k")) = some (trimQuotes (gs "b"))) :=
  ⟨label_trim_and_overwrite.1 _ _,
   label_trim_and_overwrite.2.1 _ (by decide) (by decide),
   label_trim_and_overwrite.2.2 _ _ _⟩

/-- Claim C8: in service mode, a request whose build options lack the
`filename` option (or bind it to the empty string) fails immediately
with the missing-option error and performs zero remote round-trips. -/
theorem punBuilder_missing_filename (c : GatewayClient)
    (h : lookupKV c.opts (gs "filename") = none ∨ lookupKV c.opts (gs "filename") = some []) :
    punBuilder c = some (.error (gs "filename: was not provided"), []) := by
  unfold punBuilder
  rcases h with h | h <;> rw [h] <;> rfl

/-- A gateway client with no options whose every oracle fails; used
only to witness the missing-filename behaviour. -/
def emptyClient : GatewayClient where
  opts := []
  solveContextFile := fun _ => .error []
  readContextFile := fun _ => .error []
  parseDockerfile := fun _ => .error []
  solveGraph := fun _ => .error []

/-- Witness for C8: a client with an empty option map. -/
theorem punBuilder_missing_filename_witness :
    punBuilder emptyClient = some (.error (gs "filename: was not provided"), []) :=
  punBuilder_missing_filename emptyClient (Or.inl rfl)

/-- Claim C9: the graph compiler indexes each copy entry's first source
path without a bounds guard — every descriptor whose copy entries all
have a source path compiles, while a copy entry with an empty
source-path list aborts compilation (runtime index-out-of-range panic,
modelled by `none`) instead of returning an error value. -/
theorem constructLLB_unguarded_index :
    (∀ instr : PackInstructions, (∀ c ∈ instr.copies, c.sourcePaths ≠ []) →
      (constructLLB instr).isSome = true) ∧
    constructLLB ⟨gs "scratch", [⟨[], gs "/unikernel"⟩], []⟩ = none := by
  constructor
  · intro instr h
    simp [constructLLB, copyOps_of_nonempty _ h]
  · rfl

/-- Witness for C9: a one-source copy compiles; an empty-source copy
aborts. -/
theorem constructLLB_unguarded_index_witness :
    (constructLLB ⟨gs "scratch", [⟨[gs "kernel.bin"], gs "/k"⟩], []⟩).isSome = true ∧
    constructLLB ⟨gs "scratch", [⟨[], gs "/unikernel"⟩], []⟩ = none :=
  ⟨constructLLB_unguarded_index.1 _ (by decide), constructLLB_unguarded_index.2⟩

/-- Claim C10: the image configuration attached in service mode is a
fixed constant apart from the labels — working directory `/`,
entrypoint `/hello2`, platform linux/amd64, layered root filesystem —
and only the label map and the per-key manifest annotations vary with
the input. -/
theorem annotateRes_fixed_config (a b : List (GoStr × GoStr)) :
    (annotateRes a).config.workingDir = gs "/" ∧
    (annotateRes a).config.entrypoint = [gs "/hello2"] ∧
    (annotateRes a).config.os = gs "linux" ∧
    (annotateRes a).config.arch = gs "amd64" ∧
    (annotateRes a).config.rootfsType = gs "layers" ∧
    (annotateRes a).config.labels = a ∧
    (annotateRes a).manifestAnnots = a ∧
    { (annotateRes a).config with labels := [] } = { (annotateRes b).config with labels := [] } :=
  ⟨rfl, rfl, rfl, rfl, rfl, rfl, rfl, rfl⟩

end Pun
